import Mathlib

/-!
# Verification of the wepy HDF5 storage engine core (`src/wepy/hdf5.py`)

A shallow embedding of the parts of `WepyHDF5` needed to settle the frozen
claims: the sparse trajectory-field masked read, contig validation over the
continuation edge set, record-group reads over contigs (sporadic and
continual), sporadic record extension, field feature shape/dtype declaration,
schema cloning, continuation bookkeeping, and contig trace field reads.

HDF5 datasets holding per-frame rows are embedded as Lean lists (one element
per row); resizable 1-D datasets as lists; groups of named datasets as
association lists or positional lists of columns.  Fallible operations return
`Except`/`Option`.
-/

namespace WepyHDF5

/-! ## Sparse trajectory fields (`_get_sparse_traj_field`)

A sparse field is stored as a pair of datasets: `data` (one row per stored
frame) and `_sparse_idxs` (the cycle index of each stored row, strictly
increasing).  A masked read materialises a full-length result in which absent
slots are NaN-filled and masked; we embed a (filled, mask) slot pair as an
`Option`: `some v` for an unmasked slot holding `v`, `none` for a masked slot
(whose value is undefined).
-/

/-- Numpy fancy-index assignment `filled[idxs] = data`: for each pair
`(i, v)` of `idxs.zip data`, in order, set slot `i` of the list to `some v`. -/
def assignAt {α : Type} : List (Option α) → List (Nat × α) → List (Option α)
  | l, [] => l
  | l, (i, v) :: rest => assignAt (l.set i (some v)) rest

/-- `_get_sparse_traj_field` with `frames=None, masked=True`: start from an
`n_frames`-long NaN-filled, fully-masked array (`replicate n_frames none`),
then execute `filled_data[sparse_idxs] = data` and `mask[sparse_idxs] = False`
((the `assignAt` pass sets those slots to `some`). -/
def get_sparse_traj_field_all {α : Type} (sparse_idxs : List Nat) (data : List α)
    (n_frames : Nat) : List (Option α) :=
  assignAt (List.replicate n_frames none) (sparse_idxs.zip data)

/-- Numpy boolean-mask assignment `filled[np.isin(frames, sparse_idxs)] = vals`
combined with `mask[np.isin(frames, sparse_idxs)] = False`: walk the requested
frames; a frame present in `sparse_idxs` consumes the next selected value and
is unmasked, any other frame stays masked. -/
def maskedFill {α : Type} (sparse_idxs : List Nat) : List Nat → List α → List (Option α)
  | [], _ => []
  | f :: fs, vals =>
    if f ∈ sparse_idxs then vals.head? :: maskedFill sparse_idxs fs vals.tail
    else none :: maskedFill sparse_idxs fs vals

/-- `_get_sparse_traj_field` with `frames ≠ None, masked=True`:
`sparse_frame_idxs = argwhere(isin(sparse_idxs, frames))` selects, in stored
order, the rows of `data` whose cycle index is among the requested frames;
those rows are then scattered over the requested-frame slots by the boolean
mask `isin(frames, sparse_idxs)`. -/
def get_sparse_traj_field_frames {α : Type} (sparse_idxs : List Nat) (data : List α)
    (frames : List Nat) : List (Option α) :=
  maskedFill sparse_idxs frames
    (((sparse_idxs.zip data).filter fun p => decide (p.1 ∈ frames)).map Prod.snd)

/-! ## Contig validation (`is_run_contig`) -/

/-- `is_run_contig`: build the pair `(run_idxs[idx+1], run_idxs[idx])` for each
`idx` in `range(len(run_idxs)-1)` and require each to equal some row of the
`continuations` dataset. -/
def is_run_contig (continuations : List (Nat × Nat)) (run_idxs : List Nat) : Bool :=
  (List.range (run_idxs.length - 1)).all fun idx =>
    continuations.any fun cont =>
      cont = (run_idxs.getD (idx + 1) 0, run_idxs.getD idx 0)

/-! ## Record groups

A record group of one run is embedded as its cycle-index dataset together with
its table columns (`_convert_record_fields_to_table_columns` output): one list
per record field, in manifest order, one entry per stored record. -/

/-- The per-run storage of one sporadic record group: the `_cycle_idxs`
dataset and the table columns of the record fields. -/
structure RecordGroupData (α : Type) where
  cycle_idxs : List Nat
  cols : List (List α)
deriving DecidableEq, Repr

/-- One run's contribution to a contig read: its record group storage and its
total cycle count (`num_run_cycles`). -/
structure RunRecordData (α : Type) where
  group : RecordGroupData α
  num_cycles : Nat
deriving DecidableEq, Repr

/-- `_make_records`: for each `record_idx` below the length of `cycle_idxs`,
emit the record `(cycle_idxs[record_idx], fields columns at record_idx)`. -/
def make_records {α : Type} (cycle_idxs : List Nat) (cols : List (List α)) (dflt : α) :
    List (Nat × List α) :=
  (List.range cycle_idxs.length).map fun i =>
    (cycle_idxs.getD i 0, cols.map fun col => col.getD i dflt)

/-- The contig-wide cycle-index list of `_run_records_sporadic`: each run's
stored cycle indices shifted by the cumulative cycle count
(`prev_run_cycle_total`) of the preceding runs. -/
def contig_cycle_idxs {α : Type} : List (RunRecordData α) → Nat → List Nat
  | [], _ => []
  | r :: rest, prev =>
    r.group.cycle_idxs.map (· + prev) ++ contig_cycle_idxs rest (prev + r.num_cycles)

/-- The contig-wide table column `k` of `_run_records_sporadic`: the runs'
columns `k` concatenated in contig order (`fields[field_name].extend(...)`). -/
def contig_col {α : Type} (runs : List (RunRecordData α)) (k : Nat) : List α :=
  (runs.map fun r => r.group.cols.getD k []).flatten

/-- `_run_records_sporadic`: concatenate the per-run table columns, offset each
run's stored cycle indices by the cumulative cycle count of the preceding
runs, and form the records.  `ncols` is the length of the archive-wide record
field manifest for the group. -/
def run_records_sporadic {α : Type} (ncols : Nat) (runs : List (RunRecordData α))
    (dflt : α) : List (Nat × List α) :=
  make_records (contig_cycle_idxs runs 0)
    ((List.range ncols).map fun k => contig_col runs k) dflt

/-- One run's continual record group: table columns (one row per cycle) and the
run's total cycle count. -/
structure ContinualRunData (α : Type) where
  cols : List (List α)
  num_cycles : Nat
deriving DecidableEq, Repr

/-- In `_run_records_continual` the per-run cycle indices are built as a Python
`list` (`list(range(...))`), and the offset step evaluates
`run_cycle_idxs + prev_run_cycle_total`, concatenating a `list` with an `int`:
Python raises `TypeError` there (and the following line would reference the
undefined name `run_contig_cycle_idxs`, the assignment having gone to the
misspelt `run_contig_cycle_indices`).  The embedding returns `none` for this
always-raising operation. -/
def pyListAddInt (_run_cycle_idxs : List Nat) (_prev_run_cycle_total : Nat) :
    Option (List Nat) :=
  none

/-- The contig-wide cycle-index accumulation of `_run_records_continual`: per
run, the row count of the main (first) record field gives `run_cycle_idxs`,
which is then offset by `prev_run_cycle_total` via the faulty list-plus-int
step. -/
def continual_cycle_idxs {α : Type} : List (ContinualRunData α) → Nat → Option (List Nat)
  | [], _ => some []
  | r :: rest, prev =>
    match pyListAddInt (List.range (r.cols.headD []).length) prev with
    | none => none
    | some run_contig_cycle_idxs =>
      (continual_cycle_idxs rest (prev + r.num_cycles)).map
        fun cidxs => run_contig_cycle_idxs ++ cidxs

/-- `_run_records_continual`: concatenate the per-run table columns and build
records from the offset cycle indices; the offset step raises for every run,
so any nonempty run list produces an error. -/
def run_records_continual {α : Type} (ncols : Nat) (runs : List (ContinualRunData α))
    (dflt : α) : Option (List (Nat × List α)) :=
  (continual_cycle_idxs runs 0).map fun cidxs =>
    make_records cidxs
      ((List.range ncols).map fun k => (runs.map fun r => r.cols.getD k []).flatten) dflt

/-- `extend_cycle_run_group_records` for a sporadic group: resize `_cycle_idxs`
and append one copy of `cycle_idx` per new record, then append each record's
field values to the corresponding field dataset, record by record. -/
def extend_cycle_run_group_records {α : Type} (g : RecordGroupData α) (cycle_idx : Nat)
    (fields_data : List (List α)) (dflt : α) : RecordGroupData α :=
  { cycle_idxs := g.cycle_idxs ++ List.replicate fields_data.length cycle_idx,
    cols := (List.range g.cols.length).map fun f =>
      g.cols.getD f [] ++ fields_data.map fun rec => rec.getD f dflt }

/-! ## Field feature shape/dtype declarations
(`_set_field_feature_shape`, `_set_field_feature_dtype`)

The settings tables `field_feature_shapes` / `field_feature_dtypes` map a
field path to either a declared value or the deferred marker `None`; embedded
as association lists with `Option` values.  Field paths and dtype descriptors
are abstract (`Nat` codes); shapes are integer tuples. -/

/-- Replace the value stored at `path` ( `del self.h5[full_path]` followed by
`create_dataset`). -/
def replaceDecl {δ : Type} (table : List (Nat × Option δ)) (path : Nat) (v : δ) :
    List (Nat × Option δ) :=
  table.map fun e => if e.1 = path then (e.1, some v) else e

/-- `_set_field_feature_shape`: if the path already has a declaration it may
only be overwritten when it is the deferred `None`, otherwise an
`AttributeError` (the spec's `SchemaConflict`) is raised before any mutation;
an undeclared path is freshly created (`_add_field_feature_shape`). -/
def set_field_feature_shape (shapes : List (Nat × Option (List Int))) (path : Nat)
    (shape : List Int) : Except String (List (Nat × Option (List Int))) :=
  match shapes.lookup path with
  | some none => .ok (replaceDecl shapes path shape)
  | some (some _) => .error "SchemaConflict: cannot overwrite feature shape"
  | none => .ok (shapes ++ [(path, some shape)])

/-- `_set_field_feature_dtype`: identical control flow over the dtype table. -/
def set_field_feature_dtype (dtypes : List (Nat × Option Nat)) (path : Nat)
    (dtype : Nat) : Except String (List (Nat × Option Nat)) :=
  match dtypes.lookup path with
  | some none => .ok (replaceDecl dtypes path dtype)
  | some (some _) => .error "SchemaConflict: cannot overwrite feature dtype"
  | none => .ok (dtypes ++ [(path, some dtype)])

/-! ## Archive settings, continuations, clone -/

/-- The `_settings` group: run-invariant archive metadata, including the
`continuations` dataset of `(continuation_run, base_run)` pairs. -/
structure Settings where
  sparse_fields : List Nat
  field_feature_shapes : List (Nat × Option (List Int))
  field_feature_dtypes : List (Nat × Option Nat)
  record_fields : List (Nat × List Nat)
  continuations : List (Nat × Nat)
deriving DecidableEq, Repr

/-- The archive: topology and units blobs (opaque), the settings group, and
the runs group (run payloads opaque, one entry per run, index = position). -/
structure Archive where
  topology : Nat
  units : List (Nat × Nat)
  settings : Settings
  runs : List Nat
deriving DecidableEq, Repr

/-- `_init_continuations` on an archive whose settings already hold a
`continuations` dataset: resize it to `(0, 2)`, deleting all stored edges. -/
def init_continuations (a : Archive) : Archive :=
  { a with settings := { a.settings with continuations := [] } }

/-- `clone`: create a fresh file with an empty `runs` group, copy the
`topology`, `units` and `_settings` groups of the source into it wholesale,
and then run `self._init_continuations()` — on the source.  Returns the
post-call source state and the new archive, in that order. -/
def clone (a : Archive) : Archive × Archive :=
  let new_h5 : Archive :=
    { topology := a.topology, units := a.units, settings := a.settings, runs := [] }
  (init_continuations a, new_h5)

/-- `add_continuation`: resize the `continuations` dataset by one row and
write `(continuation_run, base_run)` into the new row, unconditionally. -/
def add_continuation (a : Archive) (continuation_run base_run : Nat) : Archive :=
  { a with settings :=
      { a.settings with continuations :=
          a.settings.continuations ++ [(continuation_run, base_run)] } }

/-- `run_idxs`: `list(range(len(self._h5[RUNS])))`. -/
def run_idxs (a : Archive) : List Nat :=
  List.range a.runs.length

/-- `new_run`: raise `ValueError` when `continue_run` names a run index not in
the file; otherwise create the run group at the next index and, through
`_add_run_init`, record the continuation edge `(new_run_idx, continue_run)`
when a continuation was requested. -/
def new_run (a : Archive) (init_walkers : Nat) (continue_run : Option Nat) :
    Except String Archive :=
  match continue_run with
  | some r =>
    if r ∈ run_idxs a then
      let a1 : Archive := { a with runs := a.runs ++ [init_walkers] }
      .ok (add_continuation a1 (a.runs.length) r)
    else
      .error "ValueError: the continue_run idx given is not present in this file"
  | none => .ok { a with runs := a.runs ++ [init_walkers] }

/-- `_add_sparse_field_flag`: the membership test of the `sparse_fields`
dataset only issues the duplicate warning ("already a sparse field,
ignoring"); the resize-and-append that follows is unconditional.  Returns
whether the warning fired together with the resulting dataset contents. -/
def add_sparse_field_flag (sparse_fields : List Nat) (field_path : Nat) :
    Bool × List Nat :=
  (decide (field_path ∈ sparse_fields), sparse_fields ++ [field_path])

/-! ## Contig trace fields (`get_contig_trace_fields`)

One dense field over the whole archive is embedded as
`runs : List (List (List β))`: run index → trajectory index → cycle index →
feature row (`β` abstract). -/

/-- The run order of `get_contig_trace_fields`: first appearance of each run
index in the contig trace. -/
def traceRunIdxs (contig_trace : List (Nat × Nat)) : List Nat :=
  contig_trace.foldl (fun acc p => if p.1 ∈ acc then acc else acc ++ [p.1]) []

/-- `runs_frames[run_idx]`: the cycle indices requested for one run, in trace
order. -/
def runFrames (contig_trace : List (Nat × Nat)) (run_idx : Nat) : List Nat :=
  (contig_trace.filter fun p => p.1 = run_idx).map Prod.snd

/-- A dense-field `get_traj_field` with an explicit frame list:
`field[list(frames)]`. -/
def selectFrames {β : Type} (traj : List β) (frames : List Nat) (dflt : β) : List β :=
  frames.map fun c => traj.getD c dflt

/-- `np.hstack` on a tuple of rank-≥2 run bundles sharing the trajectory axis:
concatenate along axis 1 (the cycle axis). -/
def hstack {β : Type} : List (List (List β)) → List (List β)
  | [] => []
  | [b] => b
  | b :: b2 :: bs => List.zipWith (· ++ ·) b (hstack (b2 :: bs))

/-- `np.swapaxes(field_log, 0, 1)` on a rectangular array: exchange the
trajectory and cycle axes so cycle leads. -/
def swapAxes01 {β : Type} (m : List (List β)) (dflt : β) : List (List β) :=
  (List.range (m.headD []).length).map fun c => m.map fun row => row.getD c dflt

/-- `get_contig_trace_fields` for one field: group the trace frames by run
(first-appearance run order), read every trajectory of each run at that run's
requested frames into a bundle, `np.hstack` the bundles along the cycle axis,
and swap axes 0 and 1 so the cycle axis leads. -/
def get_contig_trace_field {β : Type} (runs : List (List (List β)))
    (contig_trace : List (Nat × Nat)) (dflt : β) : List (List β) :=
  let bundles := (traceRunIdxs contig_trace).map fun r =>
    (runs.getD r []).map fun traj => selectFrames traj (runFrames contig_trace r) dflt
  swapAxes01 (hstack bundles) dflt

/-- The per-run block the contig trace read is expected to contribute: the
run's trajectories read at the block's frames, with cycle leading. -/
def runBlock {β : Type} (runs : List (List (List β))) (r : Nat) (frames : List Nat)
    (dflt : β) : List (List β) :=
  swapAxes01 ((runs.getD r []).map fun traj => selectFrames traj frames dflt) dflt

/-- A contig trace given as consecutive per-run blocks: each block is a run
index paired with the cycle indices requested from it, flattened into the
`(run_idx, cycle_idx)` pair list `get_contig_trace_fields` consumes. -/
def blockTrace (blocks : List (Nat × List Nat)) : List (Nat × Nat) :=
  (blocks.map fun b => b.2.map fun c => (b.1, c)).flatten

/-! ## Theorems -/

/-- Claim C2: `is_run_contig` returns true iff every consecutive pair
`(run_sequence[i+1], run_sequence[i])` exists as a continuation edge; a
single-run sequence is trivially a contig; and with edges `{(1,0),(2,1)}` the
sequence `[0,1,2]` is a contig while `[0,2]` and `[2,1,0]` are not. -/
theorem is_run_contig_spec (conts : List (Nat × Nat)) (rs : List Nat) (r : Nat) :
    (is_run_contig conts rs = true ↔
      ∀ i, i + 1 < rs.length → (rs.getD (i + 1) 0, rs.getD i 0) ∈ conts) ∧
    is_run_contig conts [r] = true ∧
    is_run_contig [(1, 0), (2, 1)] [0, 1, 2] = true ∧
    is_run_contig [(1, 0), (2, 1)] [0, 2] = false ∧
    is_run_contig [(1, 0), (2, 1)] [2, 1, 0] = false := by
  refine ⟨?_, ?_, by decide, by decide, by decide⟩
  · simp only [is_run_contig, List.all_eq_true, List.mem_range, List.any_eq_true,
      decide_eq_true_eq]
    constructor
    · intro h i hi
      obtain ⟨x, hx, hxe⟩ := h i (by omega)
      exact hxe ▸ hx
    · intro h i hi
      exact ⟨_, h i (by omega), rfl⟩
  · simp [is_run_contig]

/-- Claim C9 (code-bug evaluation): registering an already-registered sparse
field issues the duplicate warning but the resize-and-append still runs, so
the `sparse_fields` dataset grows by a duplicate entry instead of being left
unchanged. -/
theorem add_sparse_field_flag_duplicate_appends :
    add_sparse_field_flag [7] 7 = (true, [7, 7]) := by decide

/-- Claim C7 (code-bug evaluation): `clone` copies the whole `_settings` group
(continuations included) into the new archive before `_init_continuations` is
run — and that reset is applied to the source, not the clone — so the clone of
a source holding the edge `(1, 0)` also holds it, instead of an empty edge
list. -/
theorem clone_copies_continuations_to_clone :
    ((clone ⟨0, [], ⟨[], [], [], [], [(1, 0)]⟩, [5, 5]⟩).2).settings.continuations
      = [(1, 0)] ∧
    ((clone ⟨0, [], ⟨[], [], [], [], [(1, 0)]⟩, [5, 5]⟩).2).runs = [] := by
  exact ⟨rfl, rfl⟩

/-- Claim C10: on a source archive with a non-empty continuation edge list,
`clone` mutates the source itself: afterwards the source's continuation list
is empty while its topology, units, every other settings table, and its run
data are unchanged. -/
theorem clone_mutates_source (a : Archive) (h : a.settings.continuations ≠ []) :
    (clone a).1.settings.continuations = [] ∧
    (clone a).1.topology = a.topology ∧
    (clone a).1.units = a.units ∧
    (clone a).1.settings.sparse_fields = a.settings.sparse_fields ∧
    (clone a).1.settings.field_feature_shapes = a.settings.field_feature_shapes ∧
    (clone a).1.settings.field_feature_dtypes = a.settings.field_feature_dtypes ∧
    (clone a).1.settings.record_fields = a.settings.record_fields ∧
    (clone a).1.runs = a.runs :=
  ⟨rfl, rfl, rfl, rfl, rfl, rfl, rfl, rfl⟩

/-- Witness for `clone_mutates_source` at a concrete archive holding the edge
`(1, 0)`. -/
theorem clone_mutates_source_witness :
    ((⟨0, [], ⟨[], [], [], [], [(1, 0)]⟩, [3]⟩ : Archive).settings.continuations ≠ []) ∧
    (clone ⟨0, [], ⟨[], [], [], [], [(1, 0)]⟩, [3]⟩).1.settings.continuations = [] ∧
    (clone ⟨0, [], ⟨[], [], [], [], [(1, 0)]⟩, [3]⟩).1.runs = [3] :=
  ⟨by decide,
   (clone_mutates_source ⟨0, [], ⟨[], [], [], [], [(1, 0)]⟩, [3]⟩ (by decide)).1,
   (clone_mutates_source ⟨0, [], ⟨[], [], [], [], [(1, 0)]⟩, [3]⟩ (by decide)).2.2.2.2.2.2.2⟩

/-- Claim C8, counterexample: in an archive with no runs at all,
`add_continuation 5 3` does not fail — it appends the edge `(5, 3)` even
though base run `3` is not a pre-existing run index, so the edge set is not
left unchanged. -/
theorem add_continuation_no_validation :
    (3 : Nat) ∉ run_idxs (⟨0, [], ⟨[], [], [], [], []⟩, []⟩ : Archive) ∧
    (add_continuation ⟨0, [], ⟨[], [], [], [], []⟩, []⟩ 5 3).settings.continuations
      = [(5, 3)] := by
  decide

/-- Claim C8 as amended: `add_continuation` appends the edge unconditionally
with no validation of `base_run`; the existence check lives in `new_run`,
which errors when `continue_run` is not a pre-existing run index and
otherwise appends the run and records the edge `(new_run_idx, continue_run)`. -/
theorem add_continuation_append_new_run_check (a : Archive) (w cr br r : Nat)
    (h : r ∈ run_idxs a) :
    (add_continuation a cr br).settings.continuations
      = a.settings.continuations ++ [(cr, br)] ∧
    (∃ a2, new_run a w (some r) = .ok a2 ∧
      a2.runs = a.runs ++ [w] ∧
      a2.settings.continuations = a.settings.continuations ++ [(a.runs.length, r)]) ∧
    ∀ r2, r2 ∉ run_idxs a →
      new_run a w (some r2)
        = .error "ValueError: the continue_run idx given is not present in this file" := by
  refine ⟨rfl, ⟨add_continuation { a with runs := a.runs ++ [w] } a.runs.length r,
    ?_, rfl, rfl⟩, ?_⟩
  · simp [new_run, h]
  · intro r2 h2
    simp [new_run, h2]

/-- Witness for `add_continuation_append_new_run_check` on a one-run archive. -/
theorem add_continuation_append_new_run_check_witness :
    (0 : Nat) ∈ run_idxs (⟨0, [], ⟨[], [], [], [], []⟩, [9]⟩ : Archive) ∧
    (add_continuation ⟨0, [], ⟨[], [], [], [], []⟩, [9]⟩ 1 0).settings.continuations
      = [(1, 0)] ∧
    (∃ a2, new_run (⟨0, [], ⟨[], [], [], [], []⟩, [9]⟩ : Archive) 8 (some 0) = .ok a2 ∧
      a2.runs = [9, 8] ∧
      a2.settings.continuations = [(1, 0)]) :=
  ⟨by decide,
   (add_continuation_append_new_run_check ⟨0, [], ⟨[], [], [], [], []⟩, [9]⟩ 8 1 0 0
     (by decide)).1,
   (add_continuation_append_new_run_check ⟨0, [], ⟨[], [], [], [], []⟩, [9]⟩ 8 1 0 0
     (by decide)).2.1⟩

/-- Looking up the path just rewritten by `replaceDecl` yields the new value,
provided the path was present in the table. -/
theorem lookup_replaceDecl {δ : Type} (table : List (Nat × Option δ)) (path : Nat)
    (v : δ) (w : Option δ) (h : table.lookup path = some w) :
    (replaceDecl table path v).lookup path = some (some v) := by
  induction table with
  | nil => simp at h
  | cons e rest ih =>
    obtain ⟨k, w2⟩ := e
    simp only [replaceDecl, List.map_cons]
    by_cases he : path = k
    · subst he
      rw [if_pos rfl]
      simp [List.lookup]
    · rw [if_neg (fun hh => he hh.symm)]
      have hk : (path == k) = false := beq_eq_false_iff_ne.mpr he
      simp only [List.lookup, hk] at h ⊢
      exact ih h

/-- Claim C6: declaring a feature shape or dtype over an existing non-deferred
declaration fails with the schema-conflict error (the declaration is
untouched, the error being raised before any mutation), while declaring over
a deferred (`None`) declaration succeeds and fixes it, after which a further
(even differing) declaration fails. -/
theorem set_field_feature_decl_spec
    (shapes : List (Nat × Option (List Int))) (dtypes : List (Nat × Option Nat))
    (p q pd qd : Nat) (sh sh2 old : List Int) (dt dt2 oldd : Nat)
    (hp : shapes.lookup p = some none) (hq : shapes.lookup q = some (some old))
    (hpd : dtypes.lookup pd = some none) (hqd : dtypes.lookup qd = some (some oldd)) :
    set_field_feature_shape shapes q sh
      = .error "SchemaConflict: cannot overwrite feature shape" ∧
    (∃ shapes2, set_field_feature_shape shapes p sh = .ok shapes2 ∧
      shapes2.lookup p = some (some sh) ∧
      set_field_feature_shape shapes2 p sh2
        = .error "SchemaConflict: cannot overwrite feature shape") ∧
    set_field_feature_dtype dtypes qd dt
      = .error "SchemaConflict: cannot overwrite feature dtype" ∧
    (∃ dtypes2, set_field_feature_dtype dtypes pd dt = .ok dtypes2 ∧
      dtypes2.lookup pd = some (some dt) ∧
      set_field_feature_dtype dtypes2 pd dt2
        = .error "SchemaConflict: cannot overwrite feature dtype") := by
  have hsh2 := lookup_replaceDecl shapes p sh none hp
  have hdt2 := lookup_replaceDecl dtypes pd dt none hpd
  refine ⟨by simp [set_field_feature_shape, hq],
    ⟨replaceDecl shapes p sh, by simp [set_field_feature_shape, hp], hsh2,
      by simp [set_field_feature_shape, hsh2]⟩,
    by simp [set_field_feature_dtype, hqd],
    ⟨replaceDecl dtypes pd dt, by simp [set_field_feature_dtype, hpd], hdt2,
      by simp [set_field_feature_dtype, hdt2]⟩⟩

/-- Witness for `set_field_feature_decl_spec` on two-entry tables with one
deferred and one declared entry each. -/
theorem set_field_feature_decl_spec_witness :
    ([(0, none), (1, some [2])] : List (Nat × Option (List Int))).lookup 0 = some none ∧
    set_field_feature_shape [(0, none), (1, some [2])] 1 [3]
      = .error "SchemaConflict: cannot overwrite feature shape" ∧
    (∃ shapes2, set_field_feature_shape [(0, none), (1, some [2])] 0 [3] = .ok shapes2 ∧
      shapes2.lookup 0 = some (some [3]) ∧
      set_field_feature_shape shapes2 0 [4]
        = .error "SchemaConflict: cannot overwrite feature shape") :=
  ⟨by decide,
   (set_field_feature_decl_spec [(0, none), (1, some [2])] [(0, none), (1, some 5)]
     0 1 0 1 [3] [4] [2] 3 4 5 (by decide) (by decide) (by decide) (by decide)).1,
   (set_field_feature_decl_spec [(0, none), (1, some [2])] [(0, none), (1, some 5)]
     0 1 0 1 [3] [4] [2] 3 4 5 (by decide) (by decide) (by decide) (by decide)).2.1⟩

/-- Reading every index of a list back with `getD` reproduces the list. -/
theorem range_map_getD {α : Type} (l : List α) (d : α) :
    (List.range l.length).map (fun i => l.getD i d) = l := by
  apply List.ext_getElem
  · simp
  · intro i h1 h2
    simp only [List.getElem_map, List.getElem_range]
    rw [List.getD_eq_getElem]

/-- `make_records` over a record group whose cycle-index dataset and table
columns are each split into two chunks yields the records of the first chunk
followed by the records of the second. -/
theorem make_records_append {α : Type} (A B : List Nat) (n : Nat)
    (colf colg : Nat → List α) (dflt : α)
    (hA : ∀ f, f < n → (colf f).length = A.length) :
    make_records (A ++ B) ((List.range n).map fun f => colf f ++ colg f) dflt
      = make_records A ((List.range n).map colf) dflt
        ++ make_records B ((List.range n).map colg) dflt := by
  unfold make_records
  rw [List.length_append, List.range_add, List.map_append, List.map_map]
  congr 1
  · apply List.map_congr_left
    intro i hi
    rw [List.mem_range] at hi
    have h1 : (A ++ B).getD i 0 = A.getD i 0 := List.getD_append _ _ _ _ hi
    rw [h1, List.map_map, List.map_map]
    congr 1
    apply List.map_congr_left
    intro f hf
    rw [List.mem_range] at hf
    simp only [Function.comp_apply]
    exact List.getD_append _ _ _ _ (by rw [hA f hf]; exact hi)
  · apply List.map_congr_left
    intro i hi
    rw [List.mem_range] at hi
    simp only [Function.comp_apply]
    have h1 : (A ++ B).getD (A.length + i) 0 = B.getD i 0 := by
      rw [List.getD_append_right _ _ _ _ (by omega)]
      congr 1
      omega
    rw [h1, List.map_map, List.map_map]
    congr 1
    apply List.map_congr_left
    intro f hf
    rw [List.mem_range] at hf
    simp only [Function.comp_apply]
    rw [List.getD_append_right _ _ _ _ (by rw [hA f hf]; omega), hA f hf]
    congr 1
    omega

/-- Shifting every cycle index shifts the cycle component of every record. -/
theorem make_records_shift {α : Type} (A : List Nat) (p : Nat) (cols : List (List α))
    (dflt : α) :
    make_records (A.map (· + p)) cols dflt
      = (make_records A cols dflt).map fun rec => (rec.1 + p, rec.2) := by
  unfold make_records
  rw [List.length_map, List.map_map]
  apply List.map_congr_left
  intro i hi
  rw [List.mem_range] at hi
  simp only [Function.comp_apply]
  rw [List.getD_eq_getElem _ _ (by simpa using hi), List.getElem_map,
    List.getD_eq_getElem _ _ hi]

/-- The running `prev_run_cycle_total` offset distributes over the contig
cycle-index list. -/
theorem contig_cycle_idxs_shift {α : Type} (runs : List (RunRecordData α)) :
    ∀ p, contig_cycle_idxs runs p = (contig_cycle_idxs runs 0).map (· + p) := by
  induction runs with
  | nil => intro p; rfl
  | cons r rest ih =>
    intro p
    rw [show contig_cycle_idxs (r :: rest) p
        = r.group.cycle_idxs.map (· + p) ++ contig_cycle_idxs rest (p + r.num_cycles)
        from rfl,
      show contig_cycle_idxs (r :: rest) 0
        = r.group.cycle_idxs.map (· + 0) ++ contig_cycle_idxs rest (0 + r.num_cycles)
        from rfl]
    rw [List.map_append, List.map_map, ih (p + r.num_cycles), ih (0 + r.num_cycles),
      List.map_map]
    congr 1
    all_goals apply List.map_congr_left
    all_goals intro x _
    all_goals try simp only [Function.comp_apply]
    all_goals omega

/-- Claim C5: appending records `[r1, …, rk]` for a cycle `c` to a sporadic
record group and reading the single-run records back yields the previously
stored records followed by the `k` new records, each tagged with cycle index
`c`, in submission order (so zero or many `extend_cycle` calls per cycle
compose). -/
theorem extend_cycle_sporadic_roundtrip {α : Type} (g : RecordGroupData α) (c : Nat)
    (rs : List (List α)) (m : Nat) (dflt : α)
    (hrect : ∀ col ∈ g.cols, col.length = g.cycle_idxs.length)
    (hrs : ∀ rec ∈ rs, rec.length = g.cols.length) :
    run_records_sporadic g.cols.length
        [⟨extend_cycle_run_group_records g c rs dflt, m⟩] dflt
      = run_records_sporadic g.cols.length [⟨g, m⟩] dflt
        ++ rs.map fun rec => (c, rec) := by
  have hsingle : ∀ g2 : RecordGroupData α, g2.cols.length = g.cols.length →
      run_records_sporadic g.cols.length [(⟨g2, m⟩ : RunRecordData α)] dflt
        = make_records g2.cycle_idxs g2.cols dflt := by
    intro g2 hc
    show make_records
        (g2.cycle_idxs.map (· + 0) ++ contig_cycle_idxs ([] : List (RunRecordData α)) (0 + m))
        ((List.range g.cols.length).map fun k =>
          contig_col [(⟨g2, m⟩ : RunRecordData α)] k) dflt
      = make_records g2.cycle_idxs g2.cols dflt
    have h1 : g2.cycle_idxs.map (· + 0)
          ++ contig_cycle_idxs ([] : List (RunRecordData α)) (0 + m)
        = g2.cycle_idxs := by
      show g2.cycle_idxs.map (· + 0) ++ [] = g2.cycle_idxs
      simp
    have h2 : ((List.range g.cols.length).map fun k =>
        contig_col [(⟨g2, m⟩ : RunRecordData α)] k) = g2.cols := by
      calc ((List.range g.cols.length).map fun k =>
            contig_col [(⟨g2, m⟩ : RunRecordData α)] k)
          = (List.range g.cols.length).map fun k => g2.cols.getD k [] := by
            apply List.map_congr_left
            intro k _
            show g2.cols.getD k [] ++ [] = g2.cols.getD k []
            simp
        _ = g2.cols := by
            rw [← hc]
            exact range_map_getD g2.cols []
    rw [h1, h2]
  rw [hsingle (extend_cycle_run_group_records g c rs dflt) (by
      show ((List.range g.cols.length).map fun f =>
        g.cols.getD f [] ++ rs.map fun rec => rec.getD f dflt).length = g.cols.length
      simp),
    hsingle g rfl]
  show make_records (g.cycle_idxs ++ List.replicate rs.length c)
      ((List.range g.cols.length).map fun f =>
        g.cols.getD f [] ++ rs.map fun rec => rec.getD f dflt) dflt
    = make_records g.cycle_idxs g.cols dflt ++ rs.map fun rec => (c, rec)
  have hA : ∀ f, f < g.cols.length → (g.cols.getD f []).length = g.cycle_idxs.length := by
    intro f hf
    rw [List.getD_eq_getElem g.cols [] hf]
    exact hrect _ (List.getElem_mem hf)
  rw [make_records_append g.cycle_idxs (List.replicate rs.length c) g.cols.length
    (fun f => g.cols.getD f []) (fun f => rs.map fun rec => rec.getD f dflt) dflt hA]
  congr 1
  · congr 1
    exact range_map_getD g.cols []
  · unfold make_records
    rw [List.length_replicate]
    apply List.ext_getElem
    · simp
    · intro i h1 h2
      have hi : i < rs.length := by simpa using h1
      simp only [List.getElem_map, List.getElem_range]
      have hc1 : (List.replicate rs.length c).getD i 0 = c := by
        rw [List.getD_eq_getElem _ _ (by simpa using hi)]
        simp
      rw [hc1, List.map_map]
      have hrow : (List.range g.cols.length).map
          ((fun col => col.getD i dflt) ∘ fun f => rs.map fun rec => rec.getD f dflt)
          = rs[i] := by
        calc (List.range g.cols.length).map
              ((fun col => col.getD i dflt) ∘ fun f => rs.map fun rec => rec.getD f dflt)
            = (List.range g.cols.length).map fun f => rs[i].getD f dflt := by
              apply List.map_congr_left
              intro f _
              simp only [Function.comp_apply]
              rw [List.getD_eq_getElem _ _ (by simpa using hi), List.getElem_map]
          _ = rs[i] := by
              have h4 : rs[i].length = g.cols.length := hrs _ (List.getElem_mem hi)
              rw [← h4]
              exact range_map_getD rs[i] dflt
      rw [hrow]

/-- Witness for `extend_cycle_sporadic_roundtrip`: one column, one stored
record at cycle 0, then two records appended at cycle 3. -/
theorem extend_cycle_sporadic_roundtrip_witness :
    (∀ col ∈ ([[5]] : List (List Nat)), col.length = ([0] : List Nat).length) ∧
    (∀ rec ∈ ([[7], [8]] : List (List Nat)), rec.length = ([[5]] : List (List Nat)).length) ∧
    run_records_sporadic 1
        [⟨extend_cycle_run_group_records ⟨[0], [[5]]⟩ 3 [[7], [8]] 0, 2⟩] 0
      = run_records_sporadic 1 [⟨(⟨[0], [[5]]⟩ : RecordGroupData Nat), 2⟩] 0
        ++ [(3, [7]), (3, [8])] :=
  ⟨by decide, by decide,
   extend_cycle_sporadic_roundtrip ⟨[0], [[5]]⟩ 3 [[7], [8]] 2 0 (by decide) (by decide)⟩

/-- Reading a single-run "contig" applies a zero offset: the records are built
directly from the run's stored cycle indices and columns. -/
theorem run_records_sporadic_single {α : Type} (ncols : Nat) (r : RunRecordData α)
    (dflt : α) :
    run_records_sporadic ncols [r] dflt
      = make_records r.group.cycle_idxs
          ((List.range ncols).map fun k => r.group.cols.getD k []) dflt := by
  show make_records
      (r.group.cycle_idxs.map (· + 0)
        ++ contig_cycle_idxs ([] : List (RunRecordData α)) (0 + r.num_cycles))
      ((List.range ncols).map fun k => contig_col [r] k) dflt
    = _
  have h1 : r.group.cycle_idxs.map (· + 0)
        ++ contig_cycle_idxs ([] : List (RunRecordData α)) (0 + r.num_cycles)
      = r.group.cycle_idxs := by
    show r.group.cycle_idxs.map (· + 0) ++ [] = _
    simp
  rw [h1]
  congr 1
  apply List.map_congr_left
  intro k _
  show r.group.cols.getD k [] ++ [] = r.group.cols.getD k []
  simp

/-- Claim C3: reading a record group over a multi-run contig.  For a sporadic
group the read decomposes as the first run's records followed by the
remaining runs' records with every cycle index offset by the first run's
cycle count (so, recursively, each later run is offset by the cumulative
cycle count of the preceding runs).  For a continual group, however, the
offset step `run_cycle_idxs + prev_run_cycle_total` concatenates a Python
`list` with an `int` and raises `TypeError` (and its result is assigned to a
misspelt variable never read), so reading any nonempty run sequence fails
instead of returning the offset timeline. -/
theorem run_contig_records_offset_behavior {α : Type} (ncols : Nat)
    (r : RunRecordData α) (rest : List (RunRecordData α)) (dflt : α)
    (crun : ContinualRunData α) (crest : List (ContinualRunData α))
    (hA : ∀ f, f < ncols → (r.group.cols.getD f []).length = r.group.cycle_idxs.length) :
    run_records_sporadic ncols (r :: rest) dflt
      = run_records_sporadic ncols [r] dflt
        ++ (run_records_sporadic ncols rest dflt).map
            (fun rec => (rec.1 + r.num_cycles, rec.2)) ∧
    run_records_continual ncols (crun :: crest) dflt = none := by
  refine ⟨?_, rfl⟩
  show make_records (contig_cycle_idxs (r :: rest) 0)
      ((List.range ncols).map fun f => r.group.cols.getD f [] ++ contig_col rest f) dflt
    = _
  have hc : contig_cycle_idxs (r :: rest) 0
      = r.group.cycle_idxs.map (· + 0) ++ contig_cycle_idxs rest (0 + r.num_cycles) := rfl
  rw [hc, make_records_append (r.group.cycle_idxs.map (· + 0))
    (contig_cycle_idxs rest (0 + r.num_cycles)) ncols
    (fun f => r.group.cols.getD f []) (fun f => contig_col rest f) dflt
    (by intro f hf; rw [List.length_map]; exact hA f hf)]
  have h2 : contig_cycle_idxs rest (0 + r.num_cycles)
      = (contig_cycle_idxs rest 0).map (· + r.num_cycles) := by
    rw [Nat.zero_add]
    exact contig_cycle_idxs_shift rest r.num_cycles
  rw [h2, make_records_shift]
  congr 1
  rw [run_records_sporadic_single]
  have h4 : (fun rec : Nat × List α => (rec.1 + 0, rec.2)) = id := by
    funext rec
    simp
  rw [h4, List.map_id]
  rw [make_records_shift]
  rfl

/-- Witness for `run_contig_records_offset_behavior`: a two-run sporadic
contig (cycle counts 3 and 2) and a one-run continual group. -/
theorem run_contig_records_offset_behavior_witness :
    (∀ f, f < 1 →
      ((([[10, 11]] : List (List Nat))).getD f []).length = ([0, 2] : List Nat).length) ∧
    run_records_sporadic 1 [⟨⟨[0, 2], [[10, 11]]⟩, 3⟩, ⟨⟨[1], [[20]]⟩, 2⟩] 0
      = run_records_sporadic 1 [⟨⟨[0, 2], [[10, 11]]⟩, 3⟩] 0
        ++ (run_records_sporadic 1 [(⟨⟨[1], [[20]]⟩, 2⟩ : RunRecordData Nat)] 0).map
            (fun rec => (rec.1 + 3, rec.2)) ∧
    run_records_continual 1 [(⟨[[1]], 1⟩ : ContinualRunData Nat)] 0 = none :=
  ⟨by decide,
   (run_contig_records_offset_behavior 1 ⟨⟨[0, 2], [[10, 11]]⟩, 3⟩ [⟨⟨[1], [[20]]⟩, 2⟩] 0
     ⟨[[1]], 1⟩ [] (by decide)).1,
   (run_contig_records_offset_behavior 1 ⟨⟨[0, 2], [[10, 11]]⟩, 3⟩ [⟨⟨[1], [[20]]⟩, 2⟩] 0
     ⟨[[1]], 1⟩ [] (by decide)).2⟩

/-- A key that is not among the stored keys has no association. -/
theorem lookup_eq_none_of_not_mem_keys {α : Type} (P : List (Nat × α)) (a : Nat)
    (h : a ∉ P.map Prod.fst) : P.lookup a = none := by
  induction P with
  | nil => rfl
  | cons e rest ih =>
    obtain ⟨k, v⟩ := e
    simp only [List.map_cons, List.mem_cons, not_or] at h
    have hk : (a == k) = false := beq_eq_false_iff_ne.mpr h.1
    simp only [List.lookup, hk]
    exact ih h.2

/-- Fancy-index assignment preserves the array length. -/
theorem assignAt_length {α : Type} (pairs : List (Nat × α)) :
    ∀ l : List (Option α), (assignAt l pairs).length = l.length := by
  induction pairs with
  | nil => intro l; rfl
  | cons e rest ih =>
    intro l
    show (assignAt (l.set e.1 (some e.2)) rest).length = l.length
    rw [ih, List.length_set]

/-- The slot a fancy-index assignment pass leaves at position `p`: the value
associated with `p` when `p` is among the (duplicate-free) assigned indices,
the original slot otherwise. -/
theorem assignAt_getElem? {α : Type} (pairs : List (Nat × α)) :
    ∀ (l : List (Option α)) (p : Nat), (pairs.map Prod.fst).Nodup → p < l.length →
      (assignAt l pairs)[p]? = (pairs.lookup p).elim l[p]? fun v => some (some v) := by
  induction pairs with
  | nil =>
    intro l p _ _
    rfl
  | cons e rest ih =>
    intro l p hnd hp
    obtain ⟨i, v⟩ := e
    simp only [List.map_cons, List.nodup_cons] at hnd
    show (assignAt (l.set i (some v)) rest)[p]? = _
    by_cases hpi : p = i
    · subst hpi
      have hrest : rest.lookup p = none :=
        lookup_eq_none_of_not_mem_keys rest p hnd.1
      rw [ih (l.set p (some v)) p hnd.2 (by rw [List.length_set]; exact hp), hrest]
      have hbeq : (p == p) = true := beq_self_eq_true p
      simp only [List.lookup, hbeq, Option.elim]
      exact List.getElem?_set_self hp
    · have hbeq : (p == i) = false := beq_eq_false_iff_ne.mpr hpi
      rw [ih (l.set i (some v)) p hnd.2 (by rw [List.length_set]; exact hp)]
      simp only [List.lookup, hbeq]
      rw [List.getElem?_set_ne (fun hh => hpi hh.symm)]

/-- Looking a key up in `S.zip D` retrieves the data row at the key's position
in `S` (and `none` for an absent key), when `S` and `D` have equal length. -/
theorem zip_lookup_eq_getElem?_indexOf {α : Type} (S : List Nat) :
    ∀ (D : List α), S.length = D.length → ∀ p, (S.zip D).lookup p = D[S.indexOf p]? := by
  induction S with
  | nil =>
    intro D hlen p
    have hD : D = [] := List.eq_nil_of_length_eq_zero hlen.symm
    subst hD
    rfl
  | cons s S2 ih =>
    intro D hlen p
    match D with
    | [] => simp at hlen
    | d :: D2 =>
      show ((s, d) :: S2.zip D2).lookup p = _
      by_cases hps : p = s
      · subst hps
        have hbeq : (p == p) = true := beq_self_eq_true p
        simp only [List.lookup, hbeq, List.indexOf_cons_self]
        exact List.getElem?_cons_zero.symm
      · have hbeq : (p == s) = false := beq_eq_false_iff_ne.mpr hps
        have hbeq2 : (s == p) = false := beq_eq_false_iff_ne.mpr fun hh => hps hh.symm
        simp only [List.lookup, hbeq]
        rw [ih D2 (by simpa using hlen) p, List.indexOf_cons, hbeq2]
        simp

/-- The `frames=None` masked read: length `n_frames`, and slot `i` holds the
data row at `i`'s position in the sparse index list (masked when absent). -/
theorem get_sparse_traj_field_all_getElem? {α : Type} (S : List Nat) (D : List α)
    (nf : Nat) (hS : S.Pairwise (· < ·)) (hlen : S.length = D.length) :
    (get_sparse_traj_field_all S D nf).length = nf ∧
    ∀ i, i < nf → (get_sparse_traj_field_all S D nf)[i]? = some D[S.indexOf i]? := by
  have hkeys : (S.zip D).map Prod.fst = S := List.map_fst_zip S D (le_of_eq hlen)
  have hnd : ((S.zip D).map Prod.fst).Nodup := by
    rw [hkeys]
    exact hS.imp Nat.ne_of_lt
  constructor
  · rw [get_sparse_traj_field_all, assignAt_length, List.length_replicate]
  · intro i hi
    rw [get_sparse_traj_field_all,
      assignAt_getElem? (S.zip D) (List.replicate nf none) i hnd
        (by rw [List.length_replicate]; exact hi),
      zip_lookup_eq_getElem?_indexOf S D hlen i]
    have hrep : (List.replicate nf (none : Option α))[i]? = some none := by
      rw [List.getElem?_replicate]
      simp [hi]
    rw [hrep]
    cases D[S.indexOf i]? <;> rfl

/-- Selecting the stored rows whose cycle index is among `f :: fs` (with `f`
a stored index smaller than all of `fs`) peels off exactly the row for `f`. -/
theorem filter_frames_cons_mem {α : Type} (P : List (Nat × α)) (f : Nat) (fs : List Nat)
    (hsort : (P.map Prod.fst).Pairwise (· < ·))
    (hf : f ∈ P.map Prod.fst) (hfs : ∀ g ∈ fs, f < g) :
    ∃ v, P.lookup f = some v ∧
      P.filter (fun p => decide (p.1 ∈ f :: fs))
        = (f, v) :: P.filter (fun p => decide (p.1 ∈ fs)) := by
  induction P with
  | nil => simp at hf
  | cons e P2 ih =>
    obtain ⟨s, d⟩ := e
    simp only [List.map_cons, List.pairwise_cons] at hsort
    by_cases hsf : s = f
    · subst hsf
      refine ⟨d, ?_, ?_⟩
      · have hbeq : (s == s) = true := beq_self_eq_true s
        simp [List.lookup, hbeq]
      · have hcong : P2.filter (fun p => decide (p.1 ∈ s :: fs))
            = P2.filter (fun p => decide (p.1 ∈ fs)) := by
          apply List.filter_congr
          intro p hp
          have hlt : s < p.1 := hsort.1 p.1 (List.mem_map_of_mem Prod.fst hp)
          have hne : p.1 ≠ s := fun hh => absurd (hh ▸ hlt) (lt_irrefl _)
          simp [List.mem_cons, hne]
        have hsfs : s ∉ fs := fun hmem => absurd (hfs s hmem) (lt_irrefl _)
        rw [List.filter_cons, List.filter_cons, if_pos (by simp),
          if_neg (by simpa using hsfs), hcong]
    · have hf2 : f ∈ P2.map Prod.fst := by
        rcases (List.mem_cons).mp hf with h1 | h2
        · exact absurd h1.symm hsf
        · exact h2
      have hslt : s < f := hsort.1 f hf2
      have hsnotin : s ∉ f :: fs := by
        intro hmem
        rcases (List.mem_cons).mp hmem with h1 | h2
        · exact hsf h1
        · exact absurd hslt (not_lt_of_lt (hfs s h2))
      obtain ⟨v, hlk, hfil⟩ := ih hsort.2 hf2
      refine ⟨v, ?_, ?_⟩
      · have hbeq : (f == s) = false := beq_eq_false_iff_ne.mpr fun hh => hsf hh.symm
        simp only [List.lookup, hbeq]
        exact hlk
      · rw [List.filter_cons, List.filter_cons,
          if_neg (by simpa using hsnotin),
          if_neg (by
            simp only [decide_eq_true_eq]
            intro hmem
            exact hsnotin (List.mem_cons_of_mem f hmem))]
        exact hfil

/-- A frame that is not a stored index selects no row: the head frame can be
dropped from the selection predicate. -/
theorem filter_frames_cons_not_mem {α : Type} (P : List (Nat × α)) (f : Nat)
    (fs : List Nat) (hf : f ∉ P.map Prod.fst) :
    P.filter (fun p => decide (p.1 ∈ f :: fs))
      = P.filter (fun p => decide (p.1 ∈ fs)) := by
  apply List.filter_congr
  intro p hp
  have : p.1 ≠ f := by
    intro hh
    exact hf (hh ▸ List.mem_map_of_mem Prod.fst hp)
  simp [List.mem_cons, this]

/-- The boolean-mask scatter of the selected rows over a strictly increasing
requested-frame list reproduces, slot by slot, the association of each frame
with its stored row. -/
theorem maskedFill_zip {α : Type} (S : List Nat) (D : List α)
    (hlen : S.length = D.length) (hS : S.Pairwise (· < ·)) :
    ∀ F : List Nat, F.Pairwise (· < ·) →
      maskedFill S F (((S.zip D).filter fun p => decide (p.1 ∈ F)).map Prod.snd)
        = F.map fun f => (S.zip D).lookup f := by
  have hkeys : (S.zip D).map Prod.fst = S := List.map_fst_zip S D (le_of_eq hlen)
  intro F hF
  induction F with
  | nil => rfl
  | cons f fs ih =>
    rw [List.pairwise_cons] at hF
    by_cases hf : f ∈ S
    · obtain ⟨v, hlk, hfil⟩ := filter_frames_cons_mem (S.zip D) f fs
        (by rw [hkeys]; exact hS) (by rw [hkeys]; exact hf) hF.1
      rw [hfil]
      show (if f ∈ S then _ :: maskedFill S fs _ else _ :: _) = _
      rw [if_pos hf]
      simp only [List.map_cons, List.head?_cons, List.tail_cons, List.map_cons]
      rw [ih hF.2, hlk]
    · have hfil := filter_frames_cons_not_mem (S.zip D) f fs (by rw [hkeys]; exact hf)
      rw [hfil]
      show (if f ∈ S then _ else none :: maskedFill S fs _) = _
      rw [if_neg hf]
      rw [List.map_cons, ih hF.2,
        lookup_eq_none_of_not_mem_keys (S.zip D) f (by rw [hkeys]; exact hf)]

/-- Claim C1: a sparse masked read has one slot per requested frame (the full
frame range when `frames=None`); slot `i` is present exactly when `i` is a
stored sparse index, in which case it holds the data row at `i`'s position in
the sparse index list; and the `{2,5,9}`-of-10 round trip returns the three
written rows at positions 2, 5, 9 and masked slots elsewhere. -/
theorem sparse_masked_read_spec {α : Type} (S : List Nat) (D : List α) (nf : Nat)
    (F : List Nat) (r1 r2 r3 : α)
    (hS : S.Pairwise (· < ·)) (hlen : S.length = D.length)
    (hF : F.Pairwise (· < ·)) :
    ((get_sparse_traj_field_all S D nf).length = nf ∧
      ∀ i, i < nf → (get_sparse_traj_field_all S D nf)[i]? = some D[S.indexOf i]? ∧
        (D[S.indexOf i]? ≠ none ↔ i ∈ S)) ∧
    ((get_sparse_traj_field_frames S D F).length = F.length ∧
      ∀ k, k < F.length → (get_sparse_traj_field_frames S D F)[k]?
        = some D[S.indexOf (F.getD k 0)]?) ∧
    get_sparse_traj_field_all [2, 5, 9] [r1, r2, r3] 10
      = [none, none, some r1, none, none, some r2, none, none, none, some r3] := by
  have hpresent : ∀ i, D[S.indexOf i]? ≠ none ↔ i ∈ S := by
    intro i
    rw [← List.indexOf_lt_length (l := S) (a := i)]
    constructor
    · intro h
      by_contra hnot
      exact h (List.getElem?_eq_none_iff.mpr (by omega))
    · intro h
      have : S.indexOf i < D.length := by omega
      rw [List.getElem?_eq_getElem this]
      exact Option.some_ne_none _
  refine ⟨?_, ?_, ?_⟩
  · obtain ⟨hl, hg⟩ := get_sparse_traj_field_all_getElem? S D nf hS hlen
    exact ⟨hl, fun i hi => ⟨hg i hi, hpresent i⟩⟩
  · have hmf := maskedFill_zip S D hlen hS F hF
    constructor
    · rw [get_sparse_traj_field_frames, hmf, List.length_map]
    · intro k hk
      rw [get_sparse_traj_field_frames, hmf, List.getElem?_map,
        List.getElem?_eq_getElem hk]
      simp only [Option.map_some']
      rw [zip_lookup_eq_getElem?_indexOf S D hlen, List.getD_eq_getElem F 0 hk]
  · rfl

/-- Witness for `sparse_masked_read_spec`: sparse indices `[2,5,9]`, three
data rows, 10 frames, requested frames `[1,5]`. -/
theorem sparse_masked_read_spec_witness :
    ([2, 5, 9] : List Nat).Pairwise (· < ·) ∧
    (get_sparse_traj_field_all [2, 5, 9] [4, 6, 8] 10).length = 10 ∧
    get_sparse_traj_field_all [2, 5, 9] ([4, 6, 8] : List Nat) 10
      = [none, none, some 4, none, none, some 6, none, none, none, some 8] :=
  ⟨by decide,
   (sparse_masked_read_spec [2, 5, 9] [4, 6, 8] 10 [1, 5] 4 6 8
     (by decide) (by decide) (by decide)).1.1,
   (sparse_masked_read_spec [2, 5, 9] [4, 6, 8] 10 [1, 5] 4 6 8
     (by decide) (by decide) (by decide)).2.2⟩

/-- Column `c` of a horizontal concatenation, read within the left part. -/
theorem zipWith_append_map_getD_left {β : Type} (c : Nat) (dflt : β) :
    ∀ (b h : List (List β)), b.length = h.length → (∀ row ∈ b, c < row.length) →
      (List.zipWith (· ++ ·) b h).map (fun row => row.getD c dflt)
        = b.map fun row => row.getD c dflt := by
  intro b
  induction b with
  | nil => intro h _ _; cases h <;> rfl
  | cons rb b2 ih =>
    intro h hlen hlt
    match h with
    | [] => simp at hlen
    | rh :: h2 =>
      simp only [List.zipWith_cons_cons, List.map_cons]
      congr 1
      · exact List.getD_append _ _ _ _ (hlt rb (List.mem_cons_self rb b2))
      · exact ih h2 (by simpa using hlen) fun row hr => hlt row (List.mem_cons_of_mem _ hr)

/-- Column `w + c` of a horizontal concatenation whose left rows all have
width `w`, read within the right part. -/
theorem zipWith_append_map_getD_right {β : Type} (w c : Nat) (dflt : β) :
    ∀ (b h : List (List β)), b.length = h.length → (∀ row ∈ b, row.length = w) →
      (List.zipWith (· ++ ·) b h).map (fun row => row.getD (w + c) dflt)
        = h.map fun row => row.getD c dflt := by
  intro b
  induction b with
  | nil =>
    intro h hlen _
    match h with
    | [] => rfl
    | rh :: h2 => simp at hlen
  | cons rb b2 ih =>
    intro h hlen hw
    match h with
    | [] => simp at hlen
    | rh :: h2 =>
      simp only [List.zipWith_cons_cons, List.map_cons]
      congr 1
      · have hwr : rb.length = w := hw rb (List.mem_cons_self rb b2)
        rw [List.getD_append_right _ _ _ _ (by omega), hwr]
        congr 1
        omega
      · exact ih h2 (by simpa using hlen) fun row hr => hw row (List.mem_cons_of_mem _ hr)

/-- Rows of a horizontal concatenation of two rectangular arrays have the sum
of the two widths. -/
theorem zipWith_append_row_length {β : Type} (wb wh : Nat) :
    ∀ (b h : List (List β)), b.length = h.length → (∀ row ∈ b, row.length = wb) →
      (∀ row ∈ h, row.length = wh) →
      ∀ row ∈ List.zipWith (· ++ ·) b h, row.length = wb + wh := by
  intro b
  induction b with
  | nil => intro h _ _ _ row hr; simp [List.zipWith] at hr
  | cons rb b2 ih =>
    intro h hlen hb hh row hr
    match h with
    | [] => simp at hlen
    | rh :: h2 =>
      simp only [List.zipWith_cons_cons, List.mem_cons] at hr
      rcases hr with h1 | h2m
      · rw [h1, List.length_append, hb rb (List.mem_cons_self rb b2),
          hh rh (List.mem_cons_self rh h2)]
      · exact ih h2 (by simpa using hlen) (fun row hr => hb row (List.mem_cons_of_mem _ hr))
          (fun row hr => hh row (List.mem_cons_of_mem _ hr)) row h2m

/-- `np.hstack` preserves the shared trajectory-axis length. -/
theorem hstack_length {β : Type} (T : Nat) :
    ∀ bundles : List (List (List β)), bundles ≠ [] →
      (∀ b ∈ bundles, b.length = T) → (hstack bundles).length = T := by
  intro bundles
  induction bundles with
  | nil => intro hne _; exact absurd rfl hne
  | cons b rest ih =>
    intro _ hT
    match rest with
    | [] => exact hT b (List.mem_cons_self b [])
    | b2 :: bs =>
      show (List.zipWith (· ++ ·) b (hstack (b2 :: bs))).length = T
      rw [List.length_zipWith, ih (by simp)
        (fun x hx => hT x (List.mem_cons_of_mem _ hx)),
        hT b (List.mem_cons_self b _), Nat.min_self]

/-- `np.hstack` of rectangular bundles of equal height is rectangular. -/
theorem hstack_rect {β : Type} (T : Nat) (hT : 0 < T) :
    ∀ bundles : List (List (List β)), bundles ≠ [] →
      (∀ b ∈ bundles, b.length = T) →
      (∀ b ∈ bundles, ∀ row ∈ b, row.length = (b.headD []).length) →
      ∀ row ∈ hstack bundles, row.length = ((hstack bundles).headD []).length := by
  intro bundles
  induction bundles with
  | nil => intro hne _ _; exact absurd rfl hne
  | cons b rest ih =>
    intro _ hlen hrect
    match rest with
    | [] => exact hrect b (List.mem_cons_self b [])
    | b2 :: bs =>
      show ∀ row ∈ List.zipWith (· ++ ·) b (hstack (b2 :: bs)), _
      intro row hr
      have hhs : ∀ row ∈ hstack (b2 :: bs), row.length = ((hstack (b2 :: bs)).headD []).length :=
        ih (by simp) (fun x hx => hlen x (List.mem_cons_of_mem _ hx))
          (fun x hx => hrect x (List.mem_cons_of_mem _ hx))
      have hbl : b.length = T := hlen b (List.mem_cons_self b _)
      have hhl : (hstack (b2 :: bs)).length = T :=
        hstack_length T (b2 :: bs) (by simp) (fun x hx => hlen x (List.mem_cons_of_mem _ hx))
      have hrow := zipWith_append_row_length (b.headD []).length
        ((hstack (b2 :: bs)).headD []).length b (hstack (b2 :: bs))
        (by omega) (hrect b (List.mem_cons_self b _)) hhs row hr
      rw [hrow]
      cases hbb : b with
      | nil =>
        rw [hbb] at hbl
        simp at hbl
        omega
      | cons rb btail =>
        cases hhh : hstack (b2 :: bs) with
        | nil =>
          rw [hhh] at hhl
          simp at hhl
          omega
        | cons rh htail =>
          rw [show hstack ((rb :: btail) :: b2 :: bs)
              = List.zipWith (· ++ ·) (rb :: btail) (hstack (b2 :: bs)) from rfl, hhh]
          simp

/-- Swapping axes 0 and 1 distributes over `np.hstack`: the transpose of the
cycle-axis concatenation is the cycle-major blocks stacked vertically. -/
theorem swapAxes01_hstack {β : Type} (T : Nat) (hT : 0 < T) (dflt : β) :
    ∀ bundles : List (List (List β)), bundles ≠ [] →
      (∀ b ∈ bundles, b.length = T) →
      (∀ b ∈ bundles, ∀ row ∈ b, row.length = (b.headD []).length) →
      swapAxes01 (hstack bundles) dflt
        = (bundles.map fun b => swapAxes01 b dflt).flatten := by
  intro bundles
  induction bundles with
  | nil => intro hne _ _; exact absurd rfl hne
  | cons b rest ih =>
    intro _ hlen hrect
    match rest with
    | [] =>
      show swapAxes01 b dflt = swapAxes01 b dflt ++ []
      rw [List.append_nil]
    | b2 :: bs =>
      have hbl : b.length = T := hlen b (List.mem_cons_self b _)
      have hhl : (hstack (b2 :: bs)).length = T :=
        hstack_length T (b2 :: bs) (by simp) (fun x hx => hlen x (List.mem_cons_of_mem _ hx))
      have hhs : ∀ row ∈ hstack (b2 :: bs), row.length = ((hstack (b2 :: bs)).headD []).length :=
        hstack_rect T hT (b2 :: bs) (by simp)
          (fun x hx => hlen x (List.mem_cons_of_mem _ hx))
          (fun x hx => hrect x (List.mem_cons_of_mem _ hx))
      show swapAxes01 (List.zipWith (· ++ ·) b (hstack (b2 :: bs))) dflt
        = swapAxes01 b dflt ++ (List.map (fun x => swapAxes01 x dflt) (b2 :: bs)).flatten
      rw [← ih (by simp) (fun x hx => hlen x (List.mem_cons_of_mem _ hx))
        (fun x hx => hrect x (List.mem_cons_of_mem _ hx))]
      have hhead : (List.zipWith (· ++ ·) b (hstack (b2 :: bs))).headD []
          = b.headD [] ++ (hstack (b2 :: bs)).headD [] := by
        cases hbb : b with
        | nil =>
          rw [hbb] at hbl
          simp at hbl
          omega
        | cons rb btail =>
          cases hhh : hstack (b2 :: bs) with
          | nil =>
            rw [hhh] at hhl
            simp at hhl
            omega
          | cons rh htail => rfl
      unfold swapAxes01
      rw [hhead, List.length_append, List.range_add, List.map_append, List.map_map]
      congr 1
      · apply List.map_congr_left
        intro c hc
        rw [List.mem_range] at hc
        exact zipWith_append_map_getD_left c dflt b (hstack (b2 :: bs)) (by omega)
          (fun row hr => by rw [hrect b (List.mem_cons_self b _) row hr]; exact hc)
      · apply List.map_congr_left
        intro c hc
        rw [List.mem_range] at hc
        simp only [Function.comp_apply]
        exact zipWith_append_map_getD_right (b.headD []).length c dflt b
          (hstack (b2 :: bs)) (by omega) (hrect b (List.mem_cons_self b _))

/-- Trace pairs of a run already collected leave the first-appearance
accumulator unchanged. -/
theorem traceRunIdxs_fold_mem (r : Nat) :
    ∀ (F : List Nat) (acc : List Nat), r ∈ acc →
      List.foldl (fun acc p => if p.1 ∈ acc then acc else acc ++ [p.1]) acc
        (F.map fun c => (r, c)) = acc := by
  intro F
  induction F with
  | nil => intro acc _; rfl
  | cons c F2 ih =>
    intro acc hr
    simp only [List.map_cons, List.foldl_cons]
    rw [if_pos hr]
    exact ih acc hr

/-- Trace pairs of a not-yet-collected run append exactly that run index. -/
theorem traceRunIdxs_fold_new (r : Nat) (F : List Nat) (hF : F ≠ []) (acc : List Nat)
    (hr : r ∉ acc) :
    List.foldl (fun acc p => if p.1 ∈ acc then acc else acc ++ [p.1]) acc
      (F.map fun c => (r, c)) = acc ++ [r] := by
  match F with
  | [] => exact absurd rfl hF
  | c :: F2 =>
    simp only [List.map_cons, List.foldl_cons]
    rw [if_neg hr]
    exact traceRunIdxs_fold_mem r F2 (acc ++ [r]) (by simp)

/-- The first-appearance fold over a block trace collects the block run
indices in order, after any accumulator disjoint from them. -/
theorem traceRunIdxs_blockTrace_go :
    ∀ (blocks : List (Nat × List Nat)) (acc : List Nat),
      (blocks.map Prod.fst).Nodup → (∀ b ∈ blocks, b.1 ∉ acc) →
      (∀ b ∈ blocks, b.2 ≠ []) →
      List.foldl (fun acc p => if p.1 ∈ acc then acc else acc ++ [p.1]) acc
        (blockTrace blocks) = acc ++ blocks.map Prod.fst := by
  intro blocks
  induction blocks with
  | nil =>
    intro acc _ _ _
    simp [blockTrace]
  | cons b bs ih =>
    intro acc hnd hacc hne
    simp only [List.map_cons, List.nodup_cons] at hnd
    show List.foldl _ acc ((b.2.map fun c => (b.1, c)) ++ blockTrace bs) = _
    rw [List.foldl_append,
      traceRunIdxs_fold_new b.1 b.2 (hne b (List.mem_cons_self b bs)) acc
        (hacc b (List.mem_cons_self b bs)),
      ih (acc ++ [b.1]) hnd.2 ?side (fun x hx => hne x (List.mem_cons_of_mem _ hx))]
    · simp
    case side =>
      intro x hx
      rw [List.mem_append]
      push_neg
      refine ⟨hacc x (List.mem_cons_of_mem _ hx), ?_⟩
      simp only [List.mem_singleton]
      intro hh
      exact hnd.1 (hh ▸ List.mem_map_of_mem Prod.fst hx)

/-- `get_contig_trace_fields` visits the runs of a block trace in block
order. -/
theorem traceRunIdxs_blockTrace (blocks : List (Nat × List Nat))
    (hnd : (blocks.map Prod.fst).Nodup) (hne : ∀ b ∈ blocks, b.2 ≠ []) :
    traceRunIdxs (blockTrace blocks) = blocks.map Prod.fst := by
  have h := traceRunIdxs_blockTrace_go blocks [] hnd (by simp) hne
  simpa [traceRunIdxs] using h

/-- Every pair of a block trace carries one of the block run indices. -/
theorem blockTrace_mem_fst (blocks : List (Nat × List Nat)) :
    ∀ p ∈ blockTrace blocks, p.1 ∈ blocks.map Prod.fst := by
  intro p hp
  unfold blockTrace at hp
  rw [List.mem_flatten] at hp
  obtain ⟨l, hl, hpl⟩ := hp
  rw [List.mem_map] at hl
  obtain ⟨b, hb, rfl⟩ := hl
  rw [List.mem_map] at hpl
  obtain ⟨c, _, rfl⟩ := hpl
  exact List.mem_map_of_mem Prod.fst hb

/-- Grouping a block trace by run recovers each block's frame list. -/
theorem runFrames_blockTrace :
    ∀ blocks : List (Nat × List Nat), (blocks.map Prod.fst).Nodup →
      ∀ b ∈ blocks, runFrames (blockTrace blocks) b.1 = b.2 := by
  intro blocks
  induction blocks with
  | nil =>
    intro _ b hb
    simp at hb
  | cons b0 bs ih =>
    intro hnd b hb
    simp only [List.map_cons, List.nodup_cons] at hnd
    show (((b0.2.map fun c => (b0.1, c)) ++ blockTrace bs).filter
        fun p => p.1 = b.1).map Prod.snd = b.2
    rw [List.filter_append, List.map_append]
    rcases List.mem_cons.mp hb with hb1 | hb2
    · subst hb1
      have h1 : (b.2.map fun c => (b.1, c)).filter (fun p => p.1 = b.1)
          = b.2.map fun c => (b.1, c) := by
        apply List.filter_eq_self.mpr
        intro p hp
        rw [List.mem_map] at hp
        obtain ⟨c, _, rfl⟩ := hp
        simp
      have h2 : (blockTrace bs).filter (fun p => p.1 = b.1) = [] := by
        rw [List.filter_eq_nil_iff]
        intro p hp
        have hmem := blockTrace_mem_fst bs p hp
        simp only [decide_eq_true_eq]
        intro hh
        exact hnd.1 (hh ▸ hmem)
      rw [h1, h2, List.map_nil, List.append_nil, List.map_map]
      have hsnd : (Prod.snd ∘ fun c : Nat => (b.1, c)) = (id : Nat → Nat) := rfl
      rw [hsnd, List.map_id]
    · have hne : b0.1 ≠ b.1 := by
        intro hh
        exact hnd.1 (hh ▸ List.mem_map_of_mem Prod.fst hb2)
      have h1 : (b0.2.map fun c => (b0.1, c)).filter (fun p => p.1 = b.1) = [] := by
        rw [List.filter_eq_nil_iff]
        intro p hp
        rw [List.mem_map] at hp
        obtain ⟨c, _, rfl⟩ := hp
        simpa using hne
      rw [h1, List.map_nil, List.nil_append]
      exact ih hnd.2 b hb2

/-- Claim C4: for a validated contig whose runs all have `T` trajectory slots,
the contig trace read returns the per-run cycle-major blocks concatenated
along the cycle axis in contig order: the result is the vertical
concatenation of each run's transposed selection, its length is the total
number of requested cycles, every row has one entry per trajectory slot, and
the 2-run (5- and 3-cycle, 4-slot) example concatenates run 0's rows 0..4
before run 1's rows 5..7. -/
theorem contig_trace_fields_blocks {β : Type} (runs : List (List (List β)))
    (blocks : List (Nat × List Nat)) (dflt : β) (T : Nat) (hT : 0 < T)
    (hne : blocks ≠ []) (hbne : ∀ b ∈ blocks, b.2 ≠ [])
    (hnd : (blocks.map Prod.fst).Nodup)
    (htrajs : ∀ b ∈ blocks, (runs.getD b.1 []).length = T) :
    get_contig_trace_field runs (blockTrace blocks) dflt
      = (blocks.map fun b => runBlock runs b.1 b.2 dflt).flatten ∧
    (get_contig_trace_field runs (blockTrace blocks) dflt).length
      = (blocks.map fun b => b.2.length).sum ∧
    (∀ row ∈ get_contig_trace_field runs (blockTrace blocks) dflt, row.length = T) ∧
    get_contig_trace_field
        [[[0, 1, 2, 3, 4], [10, 11, 12, 13, 14], [20, 21, 22, 23, 24],
          [30, 31, 32, 33, 34]],
         [[100, 101, 102], [110, 111, 112], [120, 121, 122], [130, 131, 132]]]
        [(0, 0), (0, 1), (0, 2), (0, 3), (0, 4), (1, 0), (1, 1), (1, 2)] 0
      = [[0, 10, 20, 30], [1, 11, 21, 31], [2, 12, 22, 32], [3, 13, 23, 33],
         [4, 14, 24, 34], [100, 110, 120, 130], [101, 111, 121, 131],
         [102, 112, 122, 132]] := by
  have hbundle_len : ∀ b ∈ blocks,
      ((runs.getD b.1 []).map fun traj => selectFrames traj b.2 dflt).length = T := by
    intro b hb
    rw [List.length_map]
    exact htrajs b hb
  have hbundle_rect : ∀ b ∈ blocks,
      ∀ row ∈ (runs.getD b.1 []).map fun traj => selectFrames traj b.2 dflt,
        row.length
          = (((runs.getD b.1 []).map fun traj => selectFrames traj b.2 dflt).headD
              []).length := by
    intro b hb row hrow
    rw [List.mem_map] at hrow
    obtain ⟨traj, _, rfl⟩ := hrow
    have hlenT := htrajs b hb
    cases hrr : runs.getD b.1 [] with
    | nil =>
      rw [hrr] at hlenT
      simp at hlenT
      omega
    | cons t ts =>
      simp only [List.map_cons, List.headD_cons]
      show (selectFrames traj b.2 dflt).length = (selectFrames t b.2 dflt).length
      unfold selectFrames
      rw [List.length_map, List.length_map]
  have hmain : get_contig_trace_field runs (blockTrace blocks) dflt
      = (blocks.map fun b => runBlock runs b.1 b.2 dflt).flatten := by
    unfold get_contig_trace_field
    rw [traceRunIdxs_blockTrace blocks hnd hbne, List.map_map]
    have hbundles : blocks.map ((fun r => (runs.getD r []).map fun traj =>
          selectFrames traj (runFrames (blockTrace blocks) r) dflt) ∘ Prod.fst)
        = blocks.map fun b =>
            (runs.getD b.1 []).map fun traj => selectFrames traj b.2 dflt := by
      apply List.map_congr_left
      intro b hb
      simp only [Function.comp_apply]
      rw [runFrames_blockTrace blocks hnd b hb]
    rw [hbundles,
      swapAxes01_hstack T hT dflt _ (by simpa using hne)
        (by
          intro x hx
          rw [List.mem_map] at hx
          obtain ⟨b, hb, rfl⟩ := hx
          exact hbundle_len b hb)
        (by
          intro x hx
          rw [List.mem_map] at hx
          obtain ⟨b, hb, rfl⟩ := hx
          exact hbundle_rect b hb),
      List.map_map]
    rfl
  have hblock_len : ∀ b ∈ blocks, (runBlock runs b.1 b.2 dflt).length = b.2.length := by
    intro b hb
    unfold runBlock swapAxes01
    rw [List.length_map, List.length_range]
    have hlenT := htrajs b hb
    cases hrr : runs.getD b.1 [] with
    | nil =>
      rw [hrr] at hlenT
      simp at hlenT
      omega
    | cons t ts =>
      simp only [List.map_cons, List.headD_cons]
      unfold selectFrames
      rw [List.length_map]
  refine ⟨hmain, ?_, ?_, by decide⟩
  · rw [hmain, List.length_flatten, List.map_map]
    congr 1
    apply List.map_congr_left
    intro b hb
    simp only [Function.comp_apply]
    exact hblock_len b hb
  · intro row hrow
    rw [hmain, List.mem_flatten] at hrow
    obtain ⟨l, hl, hrl⟩ := hrow
    rw [List.mem_map] at hl
    obtain ⟨b, hb, rfl⟩ := hl
    unfold runBlock swapAxes01 at hrl
    rw [List.mem_map] at hrl
    obtain ⟨c, _, rfl⟩ := hrl
    rw [List.length_map, List.length_map]
    exact htrajs b hb

/-- Witness for `contig_trace_fields_blocks`: the 2-run, 5-plus-3-cycle,
4-trajectory example. -/
theorem contig_trace_fields_blocks_witness :
    (0 : Nat) < 4 ∧
    get_contig_trace_field
        [[[0, 1, 2, 3, 4], [10, 11, 12, 13, 14], [20, 21, 22, 23, 24],
          [30, 31, 32, 33, 34]],
         [[100, 101, 102], [110, 111, 112], [120, 121, 122], [130, 131, 132]]]
        (blockTrace [(0, [0, 1, 2, 3, 4]), (1, [0, 1, 2])]) 0
      = ([(0, [0, 1, 2, 3, 4]), (1, [0, 1, 2])].map fun b =>
          runBlock
            [[[0, 1, 2, 3, 4], [10, 11, 12, 13, 14], [20, 21, 22, 23, 24],
              [30, 31, 32, 33, 34]],
             [[100, 101, 102], [110, 111, 112], [120, 121, 122], [130, 131, 132]]]
            b.1 b.2 0).flatten :=
  ⟨by decide,
   (contig_trace_fields_blocks
     [[[0, 1, 2, 3, 4], [10, 11, 12, 13, 14], [20, 21, 22, 23, 24],
       [30, 31, 32, 33, 34]],
      [[100, 101, 102], [110, 111, 112], [120, 121, 122], [130, 131, 132]]]
     [(0, [0, 1, 2, 3, 4]), (1, [0, 1, 2])] 0 4 (by decide) (by decide) (by decide)
     (by decide) (by decide)).1⟩

end WepyHDF5
